import Mathlib

/-!
# Verification of the LightSeed peer-selection engine

Shallow embedding of `src/lightseed.js`: a quadtree spatial index
(`QuadTree.insert`, `QuadTree.query`) and the `LightSeed` selection engine
(`insertPeer`, `updatePeer`, `selectPeers`).  JavaScript numbers are modelled
as exact rationals for the geometric/stateful part; the transcendental weight
computation (`Math.exp`, `Math.sqrt`) is modelled over the reals.
-/

-- Batteries marks `Rat.add`/`Rat.mul`/`Rat.sub`/`Rat.inv` irreducible, which
-- blocks `decide`-style evaluation of concrete rational arithmetic.  Restore
-- the default reducibility: this only affects definitional unfolding during
-- elaboration, not what the kernel accepts.
set_option allowUnsafeReducibility true
attribute [semireducible] Rat.add Rat.mul Rat.sub Rat.inv Rat.ofScientific

/-- A stored point `{ x, y, idx }` of the quadtree. -/
structure Pt where
  x : ℚ
  y : ℚ
  idx : ℕ
deriving DecidableEq

/-- A node boundary `{ x, y, width, height }`. -/
structure Rect where
  x : ℚ
  y : ℚ
  width : ℚ
  height : ℚ
deriving DecidableEq

/-- North-west quadrant of a boundary (`subdivide`). -/
def Rect.nwRect (b : Rect) : Rect :=
  ⟨b.x, b.y, b.width / 2, b.height / 2⟩

/-- North-east quadrant of a boundary (`subdivide`). -/
def Rect.neRect (b : Rect) : Rect :=
  ⟨b.x + b.width / 2, b.y, b.width / 2, b.height / 2⟩

/-- South-west quadrant of a boundary (`subdivide`). -/
def Rect.swRect (b : Rect) : Rect :=
  ⟨b.x, b.y + b.height / 2, b.width / 2, b.height / 2⟩

/-- South-east quadrant of a boundary (`subdivide`). -/
def Rect.seRect (b : Rect) : Rect :=
  ⟨b.x + b.width / 2, b.y + b.height / 2, b.width / 2, b.height / 2⟩

/-- `QuadTree.inBoundary`: inclusive-low / exclusive-high on both axes. -/
def inBoundary (b : Rect) (p : Pt) : Bool :=
  decide (b.x ≤ p.x) && decide (p.x < b.x + b.width) &&
  decide (b.y ≤ p.y) && decide (p.y < b.y + b.height)

/-- A query circle `{ cx, cy, r }`. -/
structure Range where
  cx : ℚ
  cy : ℚ
  r : ℚ

/-- `QuadTree.intersects`: closest-point-on-rectangle test against the circle. -/
def intersects (b : Rect) (rg : Range) : Bool :=
  let closestX := max b.x (min rg.cx (b.x + b.width))
  let closestY := max b.y (min rg.cy (b.y + b.height))
  let dx := closestX - rg.cx
  let dy := closestY - rg.cy
  decide (dx * dx + dy * dy ≤ rg.r * rg.r)

/-- `QuadTree.pointInRange`: squared-distance comparison, inclusive. -/
def pointInRange (p : Pt) (rg : Range) : Bool :=
  let dx := p.x - rg.cx
  let dy := p.y - rg.cy
  decide (dx * dx + dy * dy ≤ rg.r * rg.r)

/-- The quadtree.  A JS `QuadTree` object is a `leaf` while `divided` is
`false` and a `node` (with exactly the four children created by `subdivide`)
afterwards.  Note that `subdivide` in the source does NOT move the points of
the node into the children: a divided node keeps its `points` array. -/
inductive QuadTree where
  | leaf (boundary : Rect) (capacity : ℕ) (points : List Pt)
  | node (boundary : Rect) (capacity : ℕ) (points : List Pt)
      (nw ne sw se : QuadTree)
deriving DecidableEq

namespace QuadTree

/-- The `boundary` field. -/
def boundary : QuadTree → Rect
  | .leaf b _ _ => b
  | .node b _ _ _ _ _ _ => b

/-- The `capacity` field. -/
def capacity : QuadTree → ℕ
  | .leaf _ c _ => c
  | .node _ c _ _ _ _ _ => c

/-- The `points` array held directly at this node. -/
def points : QuadTree → List Pt
  | .leaf _ _ ps => ps
  | .node _ _ ps _ _ _ _ => ps

/-- The `divided` flag. -/
def divided : QuadTree → Bool
  | .leaf _ _ _ => false
  | .node _ _ _ _ _ _ _ => true

/-- A freshly constructed `new QuadTree(boundary, capacity)`. -/
def empty (b : Rect) (c : ℕ) : QuadTree := .leaf b c []

/-- `subdivide`: create the four quadrant children (the node keeps its own
points).  On an already divided node this is the identity (the source never
calls it in that case). -/
def subdivide : QuadTree → QuadTree
  | .leaf b c ps =>
      .node b c ps (.leaf b.nwRect c []) (.leaf b.neRect c [])
        (.leaf b.swRect c []) (.leaf b.seRect c [])
  | t => t

/-- `insert` called on one of the four freshly created (empty, undivided)
children right after `subdivide`.  It mirrors `QuadTree.insert` on an empty
leaf; when `capacity = 0` the JS code would recurse without bound (a stack
overflow), which this total model renders as a failed insert. -/
def insertFresh (t : QuadTree) (p : Pt) : QuadTree × Bool :=
  match t with
  | .leaf b c ps =>
      if inBoundary b p then
        if ps.length < c then (.leaf b c (ps ++ [p]), true) else (t, false)
      else (t, false)
  | _ => (t, false)

/-- `QuadTree.insert`.  Returns the updated tree together with the boolean
result of the JS method.  A failed child insert leaves that child unchanged,
but the (unchanged) child is threaded through to mirror in-place mutation. -/
def insert : QuadTree → Pt → QuadTree × Bool
  | .leaf b c ps, p =>
    if inBoundary b p then
      if ps.length < c then (.leaf b c (ps ++ [p]), true)
      else
        -- `if (!this.divided) this.subdivide();` then try the four fresh
        -- children in NW, NE, SW, SE order with short-circuit `||`.
        match insertFresh (.leaf b.nwRect c []) p with
        | (nw, true) =>
            (.node b c ps nw (.leaf b.neRect c []) (.leaf b.swRect c [])
              (.leaf b.seRect c []), true)
        | (nw, false) =>
          match insertFresh (.leaf b.neRect c []) p with
          | (ne, true) =>
              (.node b c ps nw ne (.leaf b.swRect c []) (.leaf b.seRect c []),
                true)
          | (ne, false) =>
            match insertFresh (.leaf b.swRect c []) p with
            | (sw, true) => (.node b c ps nw ne sw (.leaf b.seRect c []), true)
            | (sw, false) =>
              match insertFresh (.leaf b.seRect c []) p with
              | (se, ok) => (.node b c ps nw ne sw se, ok)
    else (.leaf b c ps, false)
  | .node b c ps nw ne sw se, p =>
    if inBoundary b p then
      match nw.insert p with
      | (nw', true) => (.node b c ps nw' ne sw se, true)
      | (nw', false) =>
        match ne.insert p with
        | (ne', true) => (.node b c ps nw' ne' sw se, true)
        | (ne', false) =>
          match sw.insert p with
          | (sw', true) => (.node b c ps nw' ne' sw' se, true)
          | (sw', false) =>
            match se.insert p with
            | (se', ok) => (.node b c ps nw' ne' sw' se', ok)
    else (.node b c ps nw ne sw se, false)

/-- `QuadTree.query`: prune via `intersects`, test held points, recurse into
children.  The accumulator-`push` order of the source is rendered as list
concatenation in the same order. -/
def query : QuadTree → Range → List Pt
  | .leaf b _ ps, rg =>
      if intersects b rg then ps.filter (fun p => pointInRange p rg) else []
  | .node b _ ps nw ne sw se, rg =>
      if intersects b rg then
        ps.filter (fun p => pointInRange p rg) ++ nw.query rg ++ ne.query rg ++
          sw.query rg ++ se.query rg
      else []

/-- All points stored anywhere in the tree, in traversal order. -/
def allPoints : QuadTree → List Pt
  | .leaf _ _ ps => ps
  | .node _ _ ps nw ne sw se =>
      ps ++ nw.allPoints ++ ne.allPoints ++ sw.allPoints ++ se.allPoints

/-- Structural invariant of every tree the source can build: positive
capacity; a leaf holds at most `capacity` points; a divided node holds
exactly `capacity` points (subdivision does not move them); every held point
is inside the node's boundary; the four children carry the four exact
quadrants of the parent boundary and the same capacity. -/
def inv : QuadTree → Bool
  | .leaf b c ps =>
      decide (0 < c) && decide (ps.length ≤ c) &&
      ps.all (fun p => inBoundary b p)
  | .node b c ps nw ne sw se =>
      decide (0 < c) && decide (ps.length = c) &&
      ps.all (fun p => inBoundary b p) &&
      decide (nw.boundary = b.nwRect) && decide (nw.capacity = c) &&
      decide (ne.boundary = b.neRect) && decide (ne.capacity = c) &&
      decide (sw.boundary = b.swRect) && decide (sw.capacity = c) &&
      decide (se.boundary = b.seRect) && decide (se.capacity = c) &&
      nw.inv && ne.inv && sw.inv && se.inv

end QuadTree

/-- Fold a list of points into the tree by repeated `insert`, discarding the
boolean results (as `updatePeer`'s rebuild loop does). -/
def insertList (t : QuadTree) (ps : List Pt) : QuadTree :=
  ps.foldl (fun t p => (t.insert p).1) t

/-- The `DEFAULT_CONFIG` constants (and user overrides) of `LightSeed`. -/
structure Config where
  worldSize : ℚ
  maxDepth : ℕ
  capacity : ℕ
  nCells : ℚ
  deltaT : ℚ
  sigma : ℚ
  d0 : ℚ
  v0 : ℚ
  beta : ℚ
  epsilon : ℚ

/-- `DEFAULT_CONFIG` from the source. -/
def defaultConfig : Config :=
  { worldSize := 1000, maxDepth := 5, capacity := 4, nCells := 2, deltaT := 1,
    sigma := 1/10, d0 := 100, v0 := 5, beta := 1, epsilon := 1/20 }

/-- `this.cellSize = worldSize / 2^maxDepth`. -/
def Config.cellSize (cfg : Config) : ℚ := cfg.worldSize / 2 ^ cfg.maxDepth

/-- `this.c = nCells * cellSize` ("speed of light" per time period). -/
def Config.lightSpeed (cfg : Config) : ℚ := cfg.nCells * cfg.cellSize

/-- A participant record `{ idx, x, y, vx, vy, tdf, latency }`. -/
structure Peer where
  idx : ℕ
  x : ℚ
  y : ℚ
  vx : ℚ
  vy : ℚ
  tdf : ℚ
  latency : ℚ
deriving DecidableEq

/-- The engine state: configuration, current quadtree snapshot and the
`peers` array.  JS arrays are sparse (`this.peers[idx] = ...` fills skipped
slots with holes), modelled as a list of `Option Peer` indexed by position. -/
structure LightSeed where
  config : Config
  quadtree : QuadTree
  peers : List (Option Peer)

/-- The root boundary `{ x: 0, y: 0, width: worldSize, height: worldSize }`. -/
def rootRect (cfg : Config) : Rect := ⟨0, 0, cfg.worldSize, cfg.worldSize⟩

/-- `new LightSeed(config)`: empty quadtree over the world, empty peer array. -/
def LightSeed.create (cfg : Config) : LightSeed :=
  ⟨cfg, QuadTree.empty (rootRect cfg) cfg.capacity, []⟩

/-- JS sparse-array assignment `arr[i] = v`: pads with holes when `i` is past
the end, so afterwards `arr.length = max (arr.length) (i+1)`. -/
def setIdx (l : List (Option Peer)) (i : ℕ) (v : Peer) : List (Option Peer) :=
  if i < l.length then l.set i (some v)
  else (l ++ List.replicate (i - l.length) none) ++ [some v]

/-- JS array read `arr[i]` (`undefined` on a hole or out of bounds). -/
def getIdx (l : List (Option Peer)) (i : ℕ) : Option Peer := l.getD i none

/-- `insertPeer(idx, x, y)`: insert the point into the quadtree (its boolean
result is discarded) and unconditionally store a fresh record with zero
velocity, `tdf = 1.0` and zero latency. -/
def LightSeed.insertPeer (s : LightSeed) (i : ℕ) (px py : ℚ) : LightSeed :=
  { s with
    quadtree := (s.quadtree.insert ⟨px, py, i⟩).1
    peers := setIdx s.peers i ⟨i, px, py, 0, 0, 1, 0⟩ }

/-- `updatePeer(idx, x, y, vx, vy, tdf, latency)`: replace the record, then
rebuild the quadtree from scratch by inserting every live record's position
in array order. -/
def LightSeed.updatePeer (s : LightSeed) (i : ℕ)
    (px py vx vy tdf lat : ℚ) : LightSeed :=
  let peers := setIdx s.peers i ⟨i, px, py, vx, vy, tdf, lat⟩
  { s with
    peers := peers
    quadtree :=
      insertList (QuadTree.empty (rootRect s.config) s.config.capacity)
        ((peers.filterMap id).map (fun pr => ⟨pr.x, pr.y, pr.idx⟩)) }

/-- The query circle of `selectPeers`: centered at the sender, radius
`this.c * this.deltaT`. -/
def LightSeed.senderRange (s : LightSeed) (sender : Peer) : Range :=
  ⟨sender.x, sender.y, s.config.lightSpeed * s.config.deltaT⟩

/-- `peersInRange`: indices of the queried points, in query order. -/
def LightSeed.peersInRange (s : LightSeed) (sender : Peer) : List ℕ :=
  (s.quadtree.query (s.senderRange sender)).map Pt.idx

/-- The candidates the weight loop actually scores: in-range indices with the
sender skipped and index positions with no record skipped, in order. -/
def LightSeed.candPeers (s : LightSeed) (senderIdx : ℕ) (inR : List ℕ) :
    List Peer :=
  inR.filterMap (fun j => if j = senderIdx then none else getIdx s.peers j)

/-- The `latencyTerm` local of the weight loop:
`1 / Math.max(peer.latency, 0.001)`. -/
noncomputable def latencyTerm (peer : Peer) : ℝ :=
  1 / max (peer.latency : ℝ) (1/1000)

/-- The `tdfTerm` local: Gaussian similarity of time-dilation factors. -/
noncomputable def tdfTerm (cfg : Config) (sender peer : Peer) : ℝ :=
  Real.exp (-(((sender.tdf : ℝ) - (peer.tdf : ℝ)) ^ 2) /
    (2 * (cfg.sigma : ℝ) ^ 2))

/-- The `dkj` local: Euclidean distance between subject and peer. -/
noncomputable def dkj (subject peer : Peer) : ℝ :=
  Real.sqrt (((subject.x : ℝ) - (peer.x : ℝ)) ^ 2 +
    ((subject.y : ℝ) - (peer.y : ℝ)) ^ 2)

/-- The `distanceTerm` local: inverse distance between subject and peer. -/
noncomputable def distanceTerm (cfg : Config) (subject peer : Peer) : ℝ :=
  1 / (1 + dkj subject peer / (cfg.d0 : ℝ))

/-- The `skj` local: closing speed, zero when the distance is zero. -/
noncomputable def skj (subject peer : Peer) : ℝ :=
  if 0 < dkj subject peer then
    max 0 (-(((subject.vx : ℝ) - (peer.vx : ℝ)) *
        ((subject.x : ℝ) - (peer.x : ℝ)) +
      ((subject.vy : ℝ) - (peer.vy : ℝ)) *
        ((subject.y : ℝ) - (peer.y : ℝ))) / dkj subject peer)
  else 0

/-- The `speedTerm` local: `1 + beta * (skj / v0)`. -/
noncomputable def speedTerm (cfg : Config) (subject peer : Peer) : ℝ :=
  1 + (cfg.beta : ℝ) * (skj subject peer / (cfg.v0 : ℝ))

/-- The unnormalized weight `w` of candidate `peer` for `(sender, subject)`:
latency term × Gaussian tdf-similarity term × inverse-distance term ×
closing-speed term, over the reals (`Math.exp`, `Math.sqrt`). -/
noncomputable def weight (cfg : Config) (sender subject peer : Peer) : ℝ :=
  latencyTerm peer * tdfTerm cfg sender peer * distanceTerm cfg subject peer *
    speedTerm cfg subject peer

open Classical in
/-- `selectPeers(senderIdx, subjectIdx)`.  Returns `none` exactly where the
JS method throws a `TypeError`: when the weight loop body runs (at least one
candidate) but `this.peers[playerIdx]` is `undefined`.  Otherwise it returns
the method's result list.  Note the final
`peersInRange.filter((_, i) => weights[i] !== undefined)` of the source keeps
the FIRST `weights.length` entries of `peersInRange` (a dense `weights`
array), rendered here as `List.take`, and pairs them positionally with
`probs`, rendered as `List.zip`. -/
noncomputable def LightSeed.selectPeers (s : LightSeed)
    (senderIdx subjectIdx : ℕ) : Option (List (ℕ × ℝ)) :=
  match getIdx s.peers senderIdx with
  | none => some []
  | some sender =>
    let inR := s.peersInRange sender
    let cands := s.candPeers senderIdx inR
    if cands.isEmpty then some []
    else
      match getIdx s.peers subjectIdx with
      | none => none
      | some subject =>
        let ws := cands.map (weight s.config sender subject)
        let totalWeight : ℝ := if ws.sum = 0 then 1 else ws.sum
        let n : ℝ := if s.peers.length = 0 then 1 else (s.peers.length : ℝ)
        let probs := ws.map (fun w =>
          (1 - (s.config.epsilon : ℝ)) * (w / totalWeight) +
            (s.config.epsilon : ℝ) / n)
        some ((inR.take ws.length).zip probs)

/-- The peer indices `selectPeers` returns (the `peerIdx` fields, in order),
as a computable function: the first `candPeers.length` elements of
`peersInRange`. -/
def LightSeed.selectIds (s : LightSeed) (senderIdx : ℕ) : List ℕ :=
  match getIdx s.peers senderIdx with
  | none => []
  | some sender =>
    let inR := s.peersInRange sender
    inR.take (s.candPeers senderIdx inR).length

/-- Euclidean distance between two rational points, over the reals.  Used to
state the claims' distance conditions in their own (real-number) terms. -/
noncomputable def euclid (x1 y1 x2 y2 : ℚ) : ℝ :=
  Real.sqrt (((x1 : ℝ) - (x2 : ℝ)) ^ 2 + ((y1 : ℝ) - (y2 : ℝ)) ^ 2)

/-- A spatial-index point agrees with the participant record stored for its
id (holds for every point after any `updatePeer` rebuild; repeated
`insertPeer` of one id can break it). -/
def ptMatchesRecord (s : LightSeed) (pt : Pt) : Bool :=
  match getIdx s.peers pt.idx with
  | some rec => decide (rec.x = pt.x) && decide (rec.y = pt.y)
  | none => true

/-! ### Concrete engine states used to settle the claims -/

/-- Default configuration, two peers 50 m apart (horizon is 62.5 m). -/
def stateA : LightSeed :=
  ((LightSeed.create defaultConfig).insertPeer 0 100 100).insertPeer 1 150 100

/-- Default configuration, a sparse peer array: ids 0 and 2 only, so the
array has length 3 while only two records exist. -/
def stateB : LightSeed :=
  ((LightSeed.create defaultConfig).insertPeer 0 100 100).insertPeer 2 150 100

/-- Default configuration; id 1 is registered twice at different positions,
leaving a stale in-range point for id 1 in the index while its record says
(700, 700). -/
def stateC : LightSeed :=
  ((((LightSeed.create defaultConfig).insertPeer 0 100 100).insertPeer
    1 120 100).insertPeer 2 140 100).insertPeer 1 700 700

/-- The spec's concrete scenario configuration: world side 800, everything
else at the defaults. -/
def config800 : Config := { defaultConfig with worldSize := 800 }

/-- The spec's concrete scenario state: participants 0..3 inserted, then all
updated with `tdf = 1.0` except participant 0 at `0.9`, positions unchanged,
zero velocity and latency. -/
def stateD : LightSeed :=
  ((((((((LightSeed.create config800).insertPeer 0 100 100).insertPeer
    1 150 100).insertPeer 2 100 200).insertPeer 3 500 500).updatePeer
    0 100 100 0 0 (9/10) 0).updatePeer 1 150 100 0 0 1 0).updatePeer
    2 100 200 0 0 1 0).updatePeer 3 500 500 0 0 1 0

/-- Default configuration; id 1 inserted in-world, then re-inserted at
out-of-world coordinates. -/
def stateE : LightSeed :=
  ((LightSeed.create defaultConfig).insertPeer 1 100 100).insertPeer
    1 2000 2000

/-- A capacity-4 root after five inserts: the root has subdivided and still
holds its four original points directly. -/
def treeFive : QuadTree :=
  insertList (QuadTree.empty ⟨0, 0, 800, 800⟩ 4)
    [⟨100, 100, 0⟩, ⟨200, 100, 1⟩, ⟨300, 100, 2⟩, ⟨400, 100, 3⟩,
      ⟨500, 100, 4⟩]


/-! ### Boundary arithmetic -/

theorem inB_iff (b : Rect) (p : Pt) :
    inBoundary b p = true ↔
      b.x ≤ p.x ∧ p.x < b.x + b.width ∧ b.y ≤ p.y ∧ p.y < b.y + b.height := by
  simp [inBoundary, and_assoc]

theorem inB_false_iff (b : Rect) (p : Pt) :
    inBoundary b p = false ↔
      ¬(b.x ≤ p.x ∧ p.x < b.x + b.width ∧ b.y ≤ p.y ∧ p.y < b.y + b.height) := by
  rw [← inB_iff, Bool.eq_false_iff]

theorem inB_nwRect_iff (b : Rect) (p : Pt) :
    inBoundary b.nwRect p = true ↔
      b.x ≤ p.x ∧ p.x < b.x + b.width / 2 ∧
        b.y ≤ p.y ∧ p.y < b.y + b.height / 2 := by
  rw [inB_iff]; simp only [Rect.nwRect]

theorem inB_neRect_iff (b : Rect) (p : Pt) :
    inBoundary b.neRect p = true ↔
      b.x + b.width / 2 ≤ p.x ∧ p.x < b.x + b.width ∧
        b.y ≤ p.y ∧ p.y < b.y + b.height / 2 := by
  rw [inB_iff]; simp only [Rect.neRect]
  constructor <;> rintro ⟨h1, h2, h3, h4⟩ <;>
    exact ⟨h1, by linarith, h3, h4⟩

theorem inB_swRect_iff (b : Rect) (p : Pt) :
    inBoundary b.swRect p = true ↔
      b.x ≤ p.x ∧ p.x < b.x + b.width / 2 ∧
        b.y + b.height / 2 ≤ p.y ∧ p.y < b.y + b.height := by
  rw [inB_iff]; simp only [Rect.swRect]
  constructor <;> rintro ⟨h1, h2, h3, h4⟩ <;>
    exact ⟨h1, h2, h3, by linarith⟩

theorem inB_seRect_iff (b : Rect) (p : Pt) :
    inBoundary b.seRect p = true ↔
      b.x + b.width / 2 ≤ p.x ∧ p.x < b.x + b.width ∧
        b.y + b.height / 2 ≤ p.y ∧ p.y < b.y + b.height := by
  rw [inB_iff]; simp only [Rect.seRect]
  constructor <;> rintro ⟨h1, h2, h3, h4⟩ <;>
    exact ⟨h1, by linarith, h3, by linarith⟩

/-- A point inside any quadrant is inside the parent (half-open bounds). -/
theorem inB_of_inB_quadrant (b : Rect) (p : Pt)
    (h : inBoundary b.nwRect p = true ∨ inBoundary b.neRect p = true ∨
      inBoundary b.swRect p = true ∨ inBoundary b.seRect p = true) :
    inBoundary b p = true := by
  rw [inB_iff]
  rcases h with h | h | h | h
  · rw [inB_nwRect_iff] at h; obtain ⟨h1, h2, h3, h4⟩ := h
    exact ⟨h1, by linarith, h3, by linarith⟩
  · rw [inB_neRect_iff] at h; obtain ⟨h1, h2, h3, h4⟩ := h
    exact ⟨by linarith, h2, h3, by linarith⟩
  · rw [inB_swRect_iff] at h; obtain ⟨h1, h2, h3, h4⟩ := h
    exact ⟨h1, by linarith, by linarith, h4⟩
  · rw [inB_seRect_iff] at h; obtain ⟨h1, h2, h3, h4⟩ := h
    exact ⟨by linarith, h2, by linarith, h4⟩

namespace QuadTree

/-! ### Equation lemmas for `insert` -/

theorem insertFresh_eq_pos (b' : Rect) (c : ℕ) (p : Pt) (hc : 0 < c)
    (hb : inBoundary b' p = true) :
    insertFresh (.leaf b' c []) p = (.leaf b' c [p], true) := by
  simp [insertFresh, hb, hc]

theorem insertFresh_eq_not (b' : Rect) (c : ℕ) (p : Pt)
    (hb : inBoundary b' p = false) :
    insertFresh (.leaf b' c []) p = (.leaf b' c [], false) := by
  simp [insertFresh, hb]

theorem insert_leaf_not (b : Rect) (c : ℕ) (ps : List Pt) (p : Pt)
    (hb : inBoundary b p = false) :
    (QuadTree.leaf b c ps).insert p = (.leaf b c ps, false) := by
  simp [insert, hb]

theorem insert_leaf_push (b : Rect) (c : ℕ) (ps : List Pt) (p : Pt)
    (hb : inBoundary b p = true) (hlen : ps.length < c) :
    (QuadTree.leaf b c ps).insert p = (.leaf b c (ps ++ [p]), true) := by
  simp [insert, hb, hlen]

theorem insert_node_not (b : Rect) (c : ℕ) (ps : List Pt)
    (nw ne sw se : QuadTree) (p : Pt) (hb : inBoundary b p = false) :
    (QuadTree.node b c ps nw ne sw se).insert p =
      (.node b c ps nw ne sw se, false) := by
  simp [insert, hb]

end QuadTree

/-! ### Pruning arithmetic: clamping to a closed box minimizes distance -/

theorem clamp_sq_le (lo hi c v : ℚ) (h1 : lo ≤ v) (h2 : v ≤ hi) :
    (max lo (min c hi) - c) * (max lo (min c hi) - c) ≤ (v - c) * (v - c) := by
  rcases le_total c lo with hcl | hcl
  · rw [min_eq_left (by linarith), max_eq_left hcl]
    nlinarith
  · rcases le_total c hi with hch | hch
    · rw [min_eq_left hch, max_eq_right hcl]
      nlinarith
    · rw [min_eq_right hch, max_eq_right (by linarith : lo ≤ hi)]
      nlinarith

/-- If the query circle misses the (closed) node box, no point of the box is
in range. -/
theorem pointInRange_false_of_not_intersects (b : Rect) (rg : Range) (p : Pt)
    (hx1 : b.x ≤ p.x) (hx2 : p.x ≤ b.x + b.width)
    (hy1 : b.y ≤ p.y) (hy2 : p.y ≤ b.y + b.height)
    (hni : intersects b rg = false) : pointInRange p rg = false := by
  simp only [intersects, decide_eq_false_iff_not, not_le] at hni
  simp only [pointInRange, decide_eq_false_iff_not, not_le]
  have h1 := clamp_sq_le b.x (b.x + b.width) rg.cx p.x hx1 hx2
  have h2 := clamp_sq_le b.y (b.y + b.height) rg.cy p.y hy1 hy2
  linarith

namespace QuadTree

/-- Every point stored in a well-formed tree lies in the closed version of
the tree's boundary box. -/
theorem allPoints_closed (p : Pt) : ∀ t : QuadTree, t.inv = true →
    p ∈ t.allPoints →
      t.boundary.x ≤ p.x ∧ p.x ≤ t.boundary.x + t.boundary.width ∧
        t.boundary.y ≤ p.y ∧ p.y ≤ t.boundary.y + t.boundary.height := by
  intro t
  induction t with
  | leaf b c ps =>
    intro hinv hp
    simp only [inv, Bool.and_eq_true, decide_eq_true_eq, List.all_eq_true]
      at hinv
    obtain ⟨-, hall⟩ := hinv
    have := (inB_iff b p).1 (hall p hp)
    simp only [boundary]
    exact ⟨this.1, le_of_lt this.2.1, this.2.2.1, le_of_lt this.2.2.2⟩
  | node b c ps nw ne sw se ihnw ihne ihsw ihse =>
    intro hinv hp
    simp only [inv, Bool.and_eq_true, decide_eq_true_eq, List.all_eq_true,
      and_assoc] at hinv
    obtain ⟨-, -, hall, hnwB, -, hneB, -, hswB, -, hseB, -, hinw, hine, hisw,
      hise⟩ := hinv
    simp only [boundary]
    simp only [allPoints, List.mem_append] at hp
    rcases hp with ((((hp | hp) | hp) | hp) | hp)
    · have := (inB_iff b p).1 (hall p hp)
      exact ⟨this.1, le_of_lt this.2.1, this.2.2.1, le_of_lt this.2.2.2⟩
    · have h := ihnw hinw hp
      rw [hnwB] at h
      simp only [Rect.nwRect] at h
      refine ⟨h.1, by linarith [h.1, h.2.1], h.2.2.1,
        by linarith [h.2.2.1, h.2.2.2]⟩
    · have h := ihne hine hp
      rw [hneB] at h
      simp only [Rect.neRect] at h
      refine ⟨by linarith [h.1, h.2.1], by linarith [h.1, h.2.1], h.2.2.1,
        by linarith [h.2.2.1, h.2.2.2]⟩
    · have h := ihsw hisw hp
      rw [hswB] at h
      simp only [Rect.swRect] at h
      refine ⟨h.1, by linarith [h.1, h.2.1], by linarith [h.2.2.1, h.2.2.2],
        by linarith [h.2.2.1, h.2.2.2]⟩
    · have h := ihse hise hp
      rw [hseB] at h
      simp only [Rect.seRect] at h
      refine ⟨by linarith [h.1, h.2.1], by linarith [h.1, h.2.1],
        by linarith [h.2.2.1, h.2.2.2], by linarith [h.2.2.1, h.2.2.2]⟩

theorem query_leaf_pos (b : Rect) (c : ℕ) (ps : List Pt) (rg : Range)
    (hi : intersects b rg = true) :
    (QuadTree.leaf b c ps).query rg =
      ps.filter (fun p => pointInRange p rg) := by
  simp only [query]
  rw [if_pos hi]

theorem query_leaf_neg (b : Rect) (c : ℕ) (ps : List Pt) (rg : Range)
    (hi : intersects b rg = false) : (QuadTree.leaf b c ps).query rg = [] := by
  simp only [query]
  rw [if_neg (by simp [hi])]

theorem query_node_pos (b : Rect) (c : ℕ) (ps : List Pt)
    (nw ne sw se : QuadTree) (rg : Range) (hi : intersects b rg = true) :
    (QuadTree.node b c ps nw ne sw se).query rg =
      ps.filter (fun p => pointInRange p rg) ++ nw.query rg ++ ne.query rg ++
        sw.query rg ++ se.query rg := by
  simp only [query]
  rw [if_pos hi]

theorem query_node_neg (b : Rect) (c : ℕ) (ps : List Pt)
    (nw ne sw se : QuadTree) (rg : Range) (hi : intersects b rg = false) :
    (QuadTree.node b c ps nw ne sw se).query rg = [] := by
  simp only [query]
  rw [if_neg (by simp [hi])]

/-- Soundness of `query`, with no well-formedness assumption: everything it
returns is a stored point that passes the (inclusive) range test. -/
theorem mem_query_sound (rg : Range) (p : Pt) : ∀ t : QuadTree,
    p ∈ t.query rg → p ∈ t.allPoints ∧ pointInRange p rg = true := by
  intro t
  induction t with
  | leaf b c ps =>
    intro hp
    rcases Bool.eq_false_or_eq_true (intersects b rg) with hi | hi
    · rw [query_leaf_pos b c ps rg hi, List.mem_filter] at hp
      exact ⟨hp.1, hp.2⟩
    · rw [query_leaf_neg b c ps rg hi] at hp
      simp at hp
  | node b c ps nw ne sw se ihnw ihne ihsw ihse =>
    intro hp
    rcases Bool.eq_false_or_eq_true (intersects b rg) with hi | hi
    · rw [query_node_pos b c ps nw ne sw se rg hi] at hp
      simp only [List.mem_append, List.mem_filter] at hp
      simp only [allPoints, List.mem_append]
      rcases hp with ((((hp | hp) | hp) | hp) | hp)
      · exact ⟨Or.inl (Or.inl (Or.inl (Or.inl hp.1))), hp.2⟩
      · have := ihnw hp
        exact ⟨Or.inl (Or.inl (Or.inl (Or.inr this.1))), this.2⟩
      · have := ihne hp
        exact ⟨Or.inl (Or.inl (Or.inr this.1)), this.2⟩
      · have := ihsw hp
        exact ⟨Or.inl (Or.inr this.1), this.2⟩
      · have := ihse hp
        exact ⟨Or.inr this.1, this.2⟩
    · rw [query_node_neg b c ps nw ne sw se rg hi] at hp
      simp at hp

/-- On well-formed trees `query` IS the brute-force filter of all stored
points through the inclusive euclidean range test. -/
theorem query_eq_filter (rg : Range) : ∀ t : QuadTree, t.inv = true →
    t.query rg = t.allPoints.filter (fun q => pointInRange q rg) := by
  intro t
  induction t with
  | leaf b c ps =>
    intro hinv
    rcases Bool.eq_false_or_eq_true (intersects b rg) with hi | hi
    · rw [query_leaf_pos b c ps rg hi]
      rfl
    · rw [query_leaf_neg b c ps rg hi]
      symm
      rw [List.filter_eq_nil_iff]
      intro q hq
      have hcl := allPoints_closed q (QuadTree.leaf b c ps) hinv hq
      simp only [boundary] at hcl
      simp [pointInRange_false_of_not_intersects b rg q hcl.1 hcl.2.1
        hcl.2.2.1 hcl.2.2.2 hi]
  | node b c ps nw ne sw se ihnw ihne ihsw ihse =>
    intro hinv
    have hinv' := hinv
    simp only [inv, Bool.and_eq_true, decide_eq_true_eq, List.all_eq_true,
      and_assoc] at hinv'
    obtain ⟨-, -, -, -, -, -, -, -, -, -, -, hinw, hine, hisw, hise⟩ := hinv'
    rcases Bool.eq_false_or_eq_true (intersects b rg) with hi | hi
    · rw [query_node_pos b c ps nw ne sw se rg hi]
      simp only [allPoints, List.filter_append]
      rw [ihnw hinw, ihne hine, ihsw hisw, ihse hise]
    · rw [query_node_neg b c ps nw ne sw se rg hi]
      symm
      rw [List.filter_eq_nil_iff]
      intro q hq
      have hcl := allPoints_closed q (QuadTree.node b c ps nw ne sw se) hinv hq
      simp only [boundary] at hcl
      simp [pointInRange_false_of_not_intersects b rg q hcl.1 hcl.2.1
        hcl.2.2.1 hcl.2.2.2 hi]

end QuadTree

namespace QuadTree

/-- Invariant of a node whose four children are fresh-style leaves on the
exact quadrants. -/
theorem inv_node_fresh (b : Rect) (c : ℕ) (ps : List Pt) (hc : 0 < c)
    (hpc : ps.length = c) (hall : ∀ q ∈ ps, inBoundary b q = true)
    (lnw lne lsw lse : List Pt)
    (hnw : ∀ q ∈ lnw, inBoundary b.nwRect q = true) (hlnw : lnw.length ≤ c)
    (hne : ∀ q ∈ lne, inBoundary b.neRect q = true) (hlne : lne.length ≤ c)
    (hsw : ∀ q ∈ lsw, inBoundary b.swRect q = true) (hlsw : lsw.length ≤ c)
    (hse : ∀ q ∈ lse, inBoundary b.seRect q = true) (hlse : lse.length ≤ c) :
    (QuadTree.node b c ps (.leaf b.nwRect c lnw) (.leaf b.neRect c lne)
      (.leaf b.swRect c lsw) (.leaf b.seRect c lse)).inv = true := by
  simp only [inv, boundary, capacity, Bool.and_eq_true, and_assoc]
  exact ⟨decide_eq_true hc, decide_eq_true hpc, List.all_eq_true.2 hall,
    decide_eq_true trivial, decide_eq_true trivial, decide_eq_true trivial,
    decide_eq_true trivial, decide_eq_true trivial, decide_eq_true trivial,
    decide_eq_true trivial, decide_eq_true trivial,
    decide_eq_true hc, decide_eq_true hlnw, List.all_eq_true.2 hnw,
    decide_eq_true hc, decide_eq_true hlne, List.all_eq_true.2 hne,
    decide_eq_true hc, decide_eq_true hlsw, List.all_eq_true.2 hsw,
    decide_eq_true hc, decide_eq_true hlse, List.all_eq_true.2 hse⟩

/-- Master lemma for `insert` on well-formed trees: boundary and capacity
are preserved, the boolean result is exactly the boundary test, the invariant
is preserved, and the stored multiset gains exactly the point on success and
nothing on failure. -/
theorem insert_master (p : Pt) : ∀ t : QuadTree, t.inv = true →
    (t.insert p).1.boundary = t.boundary ∧
    (t.insert p).1.capacity = t.capacity ∧
    (t.insert p).2 = inBoundary t.boundary p ∧
    (t.insert p).1.inv = true ∧
    ((t.insert p).1.allPoints : Multiset Pt) =
      (if inBoundary t.boundary p = true then {p} else 0) +
        (t.allPoints : Multiset Pt) := by
  intro t
  induction t with
  | leaf b c ps =>
    intro hinv
    have hinv0 := hinv
    simp only [inv, Bool.and_eq_true, decide_eq_true_eq, List.all_eq_true,
      and_assoc] at hinv
    obtain ⟨hc, hlen, hall⟩ := hinv
    rcases Bool.eq_false_or_eq_true (inBoundary b p) with hb | hb
    · -- the point is in the boundary
      obtain ⟨hb1, hb2, hb3, hb4⟩ := (inB_iff b p).1 hb
      by_cases hlt : ps.length < c
      · -- spare capacity: append
        rw [insert_leaf_push b c ps p hb hlt]
        refine ⟨rfl, rfl, by simp only [boundary]; exact hb.symm, ?_, ?_⟩
        · simp only [inv, Bool.and_eq_true, decide_eq_true_eq,
            List.all_eq_true, and_assoc]
          refine ⟨hc, by simp; omega, ?_⟩
          intro q hq
          rcases List.mem_append.1 hq with h | h
          · exact hall q h
          · rw [List.mem_singleton.1 h]; exact hb
        · simp only [allPoints, boundary]
          rw [if_pos hb, ← Multiset.coe_add, Multiset.coe_singleton, add_comm]
      · -- full leaf: subdivide, then insert into the fresh children
        have hpc : ps.length = c := Nat.le_antisymm hlen (Nat.not_lt.1 hlt)
        simp only [insert]
        rw [if_pos hb, if_neg hlt]
        by_cases hx : p.x < b.x + b.width / 2 <;>
          by_cases hy : p.y < b.y + b.height / 2
        · -- NW quadrant
          have hnw : inBoundary b.nwRect p = true :=
            (inB_nwRect_iff b p).2 ⟨hb1, hx, hb3, hy⟩
          rw [insertFresh_eq_pos b.nwRect c p hc hnw]
          refine ⟨rfl, rfl, by simp only [boundary]; exact hb.symm, ?_, ?_⟩
          · exact inv_node_fresh b c ps hc hpc hall [p] [] [] []
              (by simpa using hnw) hc (by simp) (by exact Nat.zero_le c) (by simp) (by exact Nat.zero_le c)
              (by simp) (by exact Nat.zero_le c)
          · show ((ps ++ [p] ++ [] ++ [] ++ [] : List Pt) : Multiset Pt) = _
            simp only [boundary]
            rw [if_pos hb]
            simp [QuadTree.allPoints, ← Multiset.coe_add, add_comm]
        · -- SW quadrant
          have hnwF : inBoundary b.nwRect p = false :=
            Bool.eq_false_iff.2 fun h => hy ((inB_nwRect_iff b p).1 h).2.2.2
          have hneF : inBoundary b.neRect p = false :=
            Bool.eq_false_iff.2 fun h =>
              absurd hx (not_lt.2 ((inB_neRect_iff b p).1 h).1)
          have hsw : inBoundary b.swRect p = true :=
            (inB_swRect_iff b p).2 ⟨hb1, hx, not_lt.1 hy, hb4⟩
          rw [insertFresh_eq_not b.nwRect c p hnwF,
            insertFresh_eq_not b.neRect c p hneF,
            insertFresh_eq_pos b.swRect c p hc hsw]
          refine ⟨rfl, rfl, by simp only [boundary]; exact hb.symm, ?_, ?_⟩
          · exact inv_node_fresh b c ps hc hpc hall [] [] [p] []
              (by simp) (by exact Nat.zero_le c) (by simp) (by exact Nat.zero_le c)
              (by simpa using hsw) hc (by simp) (by exact Nat.zero_le c)
          · show ((ps ++ [] ++ [] ++ [p] ++ [] : List Pt) : Multiset Pt) = _
            simp only [boundary]
            rw [if_pos hb]
            simp [QuadTree.allPoints, ← Multiset.coe_add, add_comm]
        · -- NE quadrant
          have hnwF : inBoundary b.nwRect p = false :=
            Bool.eq_false_iff.2 fun h =>
              absurd ((inB_nwRect_iff b p).1 h).2.1 hx
          have hne : inBoundary b.neRect p = true :=
            (inB_neRect_iff b p).2 ⟨not_lt.1 hx, hb2, hb3, hy⟩
          rw [insertFresh_eq_not b.nwRect c p hnwF,
            insertFresh_eq_pos b.neRect c p hc hne]
          refine ⟨rfl, rfl, by simp only [boundary]; exact hb.symm, ?_, ?_⟩
          · exact inv_node_fresh b c ps hc hpc hall [] [p] [] []
              (by simp) (by exact Nat.zero_le c) (by simpa using hne) hc
              (by simp) (by exact Nat.zero_le c) (by simp) (by exact Nat.zero_le c)
          · show ((ps ++ [] ++ [p] ++ [] ++ [] : List Pt) : Multiset Pt) = _
            simp only [boundary]
            rw [if_pos hb]
            simp [QuadTree.allPoints, ← Multiset.coe_add, add_comm]
        · -- SE quadrant
          have hnwF : inBoundary b.nwRect p = false :=
            Bool.eq_false_iff.2 fun h =>
              absurd ((inB_nwRect_iff b p).1 h).2.1 hx
          have hneF : inBoundary b.neRect p = false :=
            Bool.eq_false_iff.2 fun h => hy ((inB_neRect_iff b p).1 h).2.2.2
          have hswF : inBoundary b.swRect p = false :=
            Bool.eq_false_iff.2 fun h =>
              absurd ((inB_swRect_iff b p).1 h).2.1 hx
          have hse : inBoundary b.seRect p = true :=
            (inB_seRect_iff b p).2 ⟨not_lt.1 hx, hb2, not_lt.1 hy, hb4⟩
          rw [insertFresh_eq_not b.nwRect c p hnwF,
            insertFresh_eq_not b.neRect c p hneF,
            insertFresh_eq_not b.swRect c p hswF,
            insertFresh_eq_pos b.seRect c p hc hse]
          refine ⟨rfl, rfl, by simp only [boundary]; exact hb.symm, ?_, ?_⟩
          · exact inv_node_fresh b c ps hc hpc hall [] [] [] [p]
              (by simp) (by exact Nat.zero_le c) (by simp) (by exact Nat.zero_le c) (by simp) (by exact Nat.zero_le c)
              (by simpa using hse) hc
          · show ((ps ++ [] ++ [] ++ [] ++ [p] : List Pt) : Multiset Pt) = _
            simp only [boundary]
            rw [if_pos hb]
            simp [QuadTree.allPoints, ← Multiset.coe_add, add_comm]
    · -- out of the boundary: unchanged, false
      rw [insert_leaf_not b c ps p hb]
      refine ⟨rfl, rfl, by simp only [boundary]; exact hb.symm, hinv0, ?_⟩
      simp only [allPoints, boundary]
      rw [if_neg (by simp [hb]), zero_add]
  | node b c ps nw ne sw se ihnw ihne ihsw ihse =>
    intro hinv
    have hinv0 := hinv
    simp only [inv, Bool.and_eq_true, decide_eq_true_eq, List.all_eq_true,
      and_assoc] at hinv
    obtain ⟨hc, hpc, hall, hnwB, hnwC, hneB, hneC, hswB, hswC, hseB, hseC,
      hinw, hine, hisw, hise⟩ := hinv
    obtain ⟨pnwB, pnwC, pnwS, pnwI, pnwM⟩ := ihnw hinw
    obtain ⟨pneB, pneC, pneS, pneI, pneM⟩ := ihne hine
    obtain ⟨pswB, pswC, pswS, pswI, pswM⟩ := ihsw hisw
    obtain ⟨pseB, pseC, pseS, pseI, pseM⟩ := ihse hise
    rcases Bool.eq_false_or_eq_true (inBoundary b p) with hb | hb
    · -- in boundary: delegate to the child whose quadrant holds the point
      obtain ⟨hb1, hb2, hb3, hb4⟩ := (inB_iff b p).1 hb
      simp only [insert]
      rw [if_pos hb]
      by_cases hx : p.x < b.x + b.width / 2 <;>
        by_cases hy : p.y < b.y + b.height / 2
      · -- NW child succeeds
        have hnwT : inBoundary nw.boundary p = true := by
          rw [hnwB]; exact (inB_nwRect_iff b p).2 ⟨hb1, hx, hb3, hy⟩
        have hs1 : (nw.insert p).2 = true := by rw [pnwS]; exact hnwT
        have hres1 : nw.insert p = ((nw.insert p).1, true) := by rw [← hs1]
        rw [hres1]
        refine ⟨rfl, rfl, by simp only [boundary]; exact hb.symm, ?_, ?_⟩
        · show (QuadTree.node b c ps (nw.insert p).1 ne sw se).inv = true
          simp only [inv, Bool.and_eq_true, decide_eq_true_eq,
            List.all_eq_true, and_assoc]
          exact ⟨hc, hpc, hall, pnwB.trans hnwB, pnwC.trans hnwC, hneB, hneC,
            hswB, hswC, hseB, hseC, pnwI, hine, hisw, hise⟩
        · show ((ps ++ (nw.insert p).1.allPoints ++ ne.allPoints ++
            sw.allPoints ++ se.allPoints : List Pt) : Multiset Pt) = _
          simp only [boundary]
          rw [if_pos hb]
          have hm : ((nw.insert p).1.allPoints : Multiset Pt) =
              {p} + (nw.allPoints : Multiset Pt) := by
            rw [pnwM, if_pos hnwT]
          simp only [allPoints, ← Multiset.coe_add, hm]
          abel
      · -- SW child succeeds; NW and NE reject the point
        have hnwF : inBoundary nw.boundary p = false := by
          rw [hnwB]
          exact Bool.eq_false_iff.2 fun h => hy ((inB_nwRect_iff b p).1 h).2.2.2
        have hneF : inBoundary ne.boundary p = false := by
          rw [hneB]
          exact Bool.eq_false_iff.2 fun h =>
            absurd hx (not_lt.2 ((inB_neRect_iff b p).1 h).1)
        have hswT : inBoundary sw.boundary p = true := by
          rw [hswB]; exact (inB_swRect_iff b p).2 ⟨hb1, hx, not_lt.1 hy, hb4⟩
        have hs1 : (nw.insert p).2 = false := by rw [pnwS]; exact hnwF
        have hres1 : nw.insert p = ((nw.insert p).1, false) := by rw [← hs1]
        have hs2 : (ne.insert p).2 = false := by rw [pneS]; exact hneF
        have hres2 : ne.insert p = ((ne.insert p).1, false) := by rw [← hs2]
        have hs3 : (sw.insert p).2 = true := by rw [pswS]; exact hswT
        have hres3 : sw.insert p = ((sw.insert p).1, true) := by rw [← hs3]
        rw [hres1, hres2, hres3]
        refine ⟨rfl, rfl, by simp only [boundary]; exact hb.symm, ?_, ?_⟩
        · show (QuadTree.node b c ps (nw.insert p).1 (ne.insert p).1
            (sw.insert p).1 se).inv = true
          simp only [inv, Bool.and_eq_true, decide_eq_true_eq,
            List.all_eq_true, and_assoc]
          exact ⟨hc, hpc, hall, pnwB.trans hnwB, pnwC.trans hnwC,
            pneB.trans hneB, pneC.trans hneC, pswB.trans hswB,
            pswC.trans hswC, hseB, hseC, pnwI, pneI, pswI, hise⟩
        · show ((ps ++ (nw.insert p).1.allPoints ++ (ne.insert p).1.allPoints
            ++ (sw.insert p).1.allPoints ++ se.allPoints : List Pt) :
            Multiset Pt) = _
          simp only [boundary]
          rw [if_pos hb]
          have hm1 : ((nw.insert p).1.allPoints : Multiset Pt) =
              (nw.allPoints : Multiset Pt) := by
            rw [pnwM, if_neg (by simp [hnwF]), zero_add]
          have hm2 : ((ne.insert p).1.allPoints : Multiset Pt) =
              (ne.allPoints : Multiset Pt) := by
            rw [pneM, if_neg (by simp [hneF]), zero_add]
          have hm3 : ((sw.insert p).1.allPoints : Multiset Pt) =
              {p} + (sw.allPoints : Multiset Pt) := by
            rw [pswM, if_pos hswT]
          simp only [allPoints, ← Multiset.coe_add, hm1, hm2, hm3]
          abel
      · -- NE child succeeds; NW rejects the point
        have hnwF : inBoundary nw.boundary p = false := by
          rw [hnwB]
          exact Bool.eq_false_iff.2 fun h =>
            absurd ((inB_nwRect_iff b p).1 h).2.1 hx
        have hneT : inBoundary ne.boundary p = true := by
          rw [hneB]; exact (inB_neRect_iff b p).2 ⟨not_lt.1 hx, hb2, hb3, hy⟩
        have hs1 : (nw.insert p).2 = false := by rw [pnwS]; exact hnwF
        have hres1 : nw.insert p = ((nw.insert p).1, false) := by rw [← hs1]
        have hs2 : (ne.insert p).2 = true := by rw [pneS]; exact hneT
        have hres2 : ne.insert p = ((ne.insert p).1, true) := by rw [← hs2]
        rw [hres1, hres2]
        refine ⟨rfl, rfl, by simp only [boundary]; exact hb.symm, ?_, ?_⟩
        · show (QuadTree.node b c ps (nw.insert p).1 (ne.insert p).1
            sw se).inv = true
          simp only [inv, Bool.and_eq_true, decide_eq_true_eq,
            List.all_eq_true, and_assoc]
          exact ⟨hc, hpc, hall, pnwB.trans hnwB, pnwC.trans hnwC,
            pneB.trans hneB, pneC.trans hneC, hswB, hswC, hseB, hseC,
            pnwI, pneI, hisw, hise⟩
        · show ((ps ++ (nw.insert p).1.allPoints ++ (ne.insert p).1.allPoints
            ++ sw.allPoints ++ se.allPoints : List Pt) : Multiset Pt) = _
          simp only [boundary]
          rw [if_pos hb]
          have hm1 : ((nw.insert p).1.allPoints : Multiset Pt) =
              (nw.allPoints : Multiset Pt) := by
            rw [pnwM, if_neg (by simp [hnwF]), zero_add]
          have hm2 : ((ne.insert p).1.allPoints : Multiset Pt) =
              {p} + (ne.allPoints : Multiset Pt) := by
            rw [pneM, if_pos hneT]
          simp only [allPoints, ← Multiset.coe_add, hm1, hm2]
          abel
      · -- SE child succeeds; NW, NE and SW reject the point
        have hnwF : inBoundary nw.boundary p = false := by
          rw [hnwB]
          exact Bool.eq_false_iff.2 fun h =>
            absurd ((inB_nwRect_iff b p).1 h).2.1 hx
        have hneF : inBoundary ne.boundary p = false := by
          rw [hneB]
          exact Bool.eq_false_iff.2 fun h => hy ((inB_neRect_iff b p).1 h).2.2.2
        have hswF : inBoundary sw.boundary p = false := by
          rw [hswB]
          exact Bool.eq_false_iff.2 fun h =>
            absurd ((inB_swRect_iff b p).1 h).2.1 hx
        have hseT : inBoundary se.boundary p = true := by
          rw [hseB]
          exact (inB_seRect_iff b p).2 ⟨not_lt.1 hx, hb2, not_lt.1 hy, hb4⟩
        have hs1 : (nw.insert p).2 = false := by rw [pnwS]; exact hnwF
        have hres1 : nw.insert p = ((nw.insert p).1, false) := by rw [← hs1]
        have hs2 : (ne.insert p).2 = false := by rw [pneS]; exact hneF
        have hres2 : ne.insert p = ((ne.insert p).1, false) := by rw [← hs2]
        have hs3 : (sw.insert p).2 = false := by rw [pswS]; exact hswF
        have hres3 : sw.insert p = ((sw.insert p).1, false) := by rw [← hs3]
        have hs4 : (se.insert p).2 = true := by rw [pseS]; exact hseT
        have hres4 : se.insert p = ((se.insert p).1, true) := by rw [← hs4]
        rw [hres1, hres2, hres3, hres4]
        refine ⟨rfl, rfl, by simp only [boundary]; exact hb.symm, ?_, ?_⟩
        · show (QuadTree.node b c ps (nw.insert p).1 (ne.insert p).1
            (sw.insert p).1 (se.insert p).1).inv = true
          simp only [inv, Bool.and_eq_true, decide_eq_true_eq,
            List.all_eq_true, and_assoc]
          exact ⟨hc, hpc, hall, pnwB.trans hnwB, pnwC.trans hnwC,
            pneB.trans hneB, pneC.trans hneC, pswB.trans hswB,
            pswC.trans hswC, pseB.trans hseB, pseC.trans hseC,
            pnwI, pneI, pswI, pseI⟩
        · show ((ps ++ (nw.insert p).1.allPoints ++ (ne.insert p).1.allPoints
            ++ (sw.insert p).1.allPoints ++ (se.insert p).1.allPoints :
            List Pt) : Multiset Pt) = _
          simp only [boundary]
          rw [if_pos hb]
          have hm1 : ((nw.insert p).1.allPoints : Multiset Pt) =
              (nw.allPoints : Multiset Pt) := by
            rw [pnwM, if_neg (by simp [hnwF]), zero_add]
          have hm2 : ((ne.insert p).1.allPoints : Multiset Pt) =
              (ne.allPoints : Multiset Pt) := by
            rw [pneM, if_neg (by simp [hneF]), zero_add]
          have hm3 : ((sw.insert p).1.allPoints : Multiset Pt) =
              (sw.allPoints : Multiset Pt) := by
            rw [pswM, if_neg (by simp [hswF]), zero_add]
          have hm4 : ((se.insert p).1.allPoints : Multiset Pt) =
              {p} + (se.allPoints : Multiset Pt) := by
            rw [pseM, if_pos hseT]
          simp only [allPoints, ← Multiset.coe_add, hm1, hm2, hm3, hm4]
          abel
    · -- out of the boundary: unchanged, false
      rw [insert_node_not b c ps nw ne sw se p hb]
      refine ⟨rfl, rfl, by simp only [boundary]; exact hb.symm, hinv0, ?_⟩
      simp only [allPoints, boundary]
      rw [if_neg (by simp [hb]), zero_add]

end QuadTree

namespace QuadTree

/-- An out-of-boundary insert returns `false` and the very same tree. -/
theorem insert_eq_self_of_not_inB (t : QuadTree) (p : Pt)
    (hb : inBoundary t.boundary p = false) : t.insert p = (t, false) := by
  cases t with
  | leaf b c ps => exact insert_leaf_not b c ps p hb
  | node b c ps nw ne sw se => exact insert_node_not b c ps nw ne sw se p hb

/-- On a well-formed tree, a failed insert leaves everything unchanged. -/
theorem insert_unchanged_of_false (t : QuadTree) (p : Pt)
    (hinv : t.inv = true) (hf : (t.insert p).2 = false) :
    t.insert p = (t, false) := by
  have hb : inBoundary t.boundary p = false :=
    ((insert_master p t hinv).2.2.1).symm.trans hf
  exact insert_eq_self_of_not_inB t p hb

/-- `insert` never clears the `divided` flag of a divided node. -/
theorem insert_keeps_divided (b : Rect) (c : ℕ) (ps : List Pt)
    (nw ne sw se : QuadTree) (p : Pt) :
    (((QuadTree.node b c ps nw ne sw se).insert p).1).divided = true := by
  simp only [insert]
  rcases Bool.eq_false_or_eq_true (inBoundary b p) with hb | hb
  · rw [if_pos hb]
    rcases h1 : nw.insert p with ⟨nw1, ok1⟩
    cases ok1
    · rcases h2 : ne.insert p with ⟨ne1, ok2⟩
      cases ok2
      · rcases h3 : sw.insert p with ⟨sw1, ok3⟩
        cases ok3
        · rcases h4 : se.insert p with ⟨se1, ok4⟩
          cases ok4 <;> rfl
        · rfl
      · rfl
    · rfl
  · rw [if_neg (by simp [hb])]
    rfl

/-- A freshly constructed tree satisfies the invariant (capacity must be
positive: with capacity 0 the source diverges on the first in-region
insert). -/
theorem empty_inv (b : Rect) (c : ℕ) (hc : 0 < c) : (empty b c).inv = true := by
  simp [empty, inv, hc]

end QuadTree

/-- Folding `insert` over a point list preserves the invariant and the
boundary, and stores exactly the in-boundary points (as a multiset) on top of
what was already there. -/
theorem insertList_master (ps : List Pt) : ∀ t : QuadTree, t.inv = true →
    (insertList t ps).inv = true ∧
    (insertList t ps).boundary = t.boundary ∧
    ((insertList t ps).allPoints : Multiset Pt) =
      ↑(ps.filter (fun q => inBoundary t.boundary q)) +
        (t.allPoints : Multiset Pt) := by
  induction ps with
  | nil => exact fun t hinv => ⟨hinv, rfl, by simp [insertList]⟩
  | cons p ps ih =>
    intro t hinv
    obtain ⟨mB, mC, mS, mI, mM⟩ := QuadTree.insert_master p t hinv
    have step : insertList t (p :: ps) = insertList (t.insert p).1 ps := rfl
    obtain ⟨iI, iB, iM⟩ := ih (t.insert p).1 mI
    refine ⟨by rw [step]; exact iI, by rw [step, iB, mB], ?_⟩
    rw [step, iM, mB, mM, List.filter_cons]
    rcases Bool.eq_false_or_eq_true (inBoundary t.boundary p) with hb | hb
    · rw [if_pos hb, if_pos hb, ← Multiset.cons_coe, ← Multiset.singleton_add]
      abel
    · rw [if_neg (by simp [hb]), if_neg (by simp [hb]), zero_add]

/-- Membership in a tree built from scratch: exactly the in-boundary points
of the input list. -/
theorem mem_insertList (b : Rect) (c : ℕ) (hc : 0 < c) (ps : List Pt)
    (q : Pt) :
    q ∈ (insertList (QuadTree.empty b c) ps).allPoints ↔
      q ∈ ps ∧ inBoundary b q = true := by
  obtain ⟨-, -, hM⟩ :=
    insertList_master ps (QuadTree.empty b c) (QuadTree.empty_inv b c hc)
  rw [← Multiset.mem_coe, hM]
  simp [QuadTree.empty, QuadTree.allPoints, QuadTree.boundary, List.mem_filter]

/-- The inclusive squared-distance test of the source is exactly the
euclidean-distance comparison of the spec (for nonnegative radius). -/
theorem pointInRange_iff_dist (p : Pt) (rg : Range) (hr : 0 ≤ rg.r) :
    pointInRange p rg = true ↔
      euclid p.x p.y rg.cx rg.cy ≤ (rg.r : ℝ) := by
  simp only [pointInRange, decide_eq_true_eq, euclid]
  rw [Real.sqrt_le_iff]
  have e1 : (((p.x - rg.cx) * (p.x - rg.cx) +
      (p.y - rg.cy) * (p.y - rg.cy) : ℚ) : ℝ) =
      ((p.x : ℝ) - (rg.cx : ℝ)) ^ 2 + ((p.y : ℝ) - (rg.cy : ℝ)) ^ 2 := by
    push_cast
    ring
  have e2 : ((rg.r * rg.r : ℚ) : ℝ) = (rg.r : ℝ) ^ 2 := by
    push_cast
    ring
  constructor
  · intro h
    refine ⟨by exact_mod_cast hr, ?_⟩
    rw [← e1, ← e2]
    exact_mod_cast h
  · rintro ⟨-, h⟩
    rw [← e1, ← e2] at h
    exact_mod_cast h

/-! ### The peer array -/

/-- Reading back the slot just written. -/
theorem getIdx_setIdx (l : List (Option Peer)) (i : ℕ) (v : Peer) :
    getIdx (setIdx l i v) i = some v := by
  unfold getIdx setIdx
  by_cases h : i < l.length
  · rw [if_pos h]
    simp [List.getD_eq_getElem?_getD, List.getElem?_set_self h]
  · rw [if_neg h]
    have hA : (l ++ List.replicate (i - l.length) none).length = i := by
      simp
      omega
    rw [List.getD_append_right _ _ _ _ hA.le, hA, Nat.sub_self]
    rfl

/-! ### Positivity of the weight factors -/

theorem latencyTerm_pos (peer : Peer) : 0 < latencyTerm peer := by
  unfold latencyTerm
  apply one_div_pos.2
  calc (0:ℝ) < 1/1000 := by norm_num
    _ ≤ max (peer.latency : ℝ) (1/1000) := le_max_right _ _

theorem tdfTerm_pos (cfg : Config) (sender peer : Peer) :
    0 < tdfTerm cfg sender peer := Real.exp_pos _

theorem dkj_nonneg (subject peer : Peer) : 0 ≤ dkj subject peer :=
  Real.sqrt_nonneg _

theorem distanceTerm_pos (cfg : Config) (subject peer : Peer)
    (hd0 : 0 < cfg.d0) : 0 < distanceTerm cfg subject peer := by
  unfold distanceTerm
  apply one_div_pos.2
  have h1 : (0:ℝ) < (cfg.d0 : ℝ) := by exact_mod_cast hd0
  have h2 : 0 ≤ dkj subject peer / (cfg.d0 : ℝ) :=
    div_nonneg (dkj_nonneg _ _) h1.le
  linarith

theorem skj_nonneg (subject peer : Peer) : 0 ≤ skj subject peer := by
  unfold skj
  split
  · exact le_max_left _ _
  · exact le_refl 0

theorem speedTerm_pos (cfg : Config) (subject peer : Peer)
    (hv0 : 0 < cfg.v0) (hbeta : 0 ≤ cfg.beta) :
    0 < speedTerm cfg subject peer := by
  unfold speedTerm
  have h1 : (0:ℝ) < (cfg.v0 : ℝ) := by exact_mod_cast hv0
  have h2 : (0:ℝ) ≤ (cfg.beta : ℝ) := by exact_mod_cast hbeta
  have h3 : 0 ≤ skj subject peer / (cfg.v0 : ℝ) :=
    div_nonneg (skj_nonneg _ _) h1.le
  nlinarith

/-- Every candidate weight is strictly positive in exact real arithmetic
(the source's `d0`, `v0` positive and `beta` nonnegative, as in the default
configuration). -/
theorem weight_pos (cfg : Config) (sender subject peer : Peer)
    (hd0 : 0 < cfg.d0) (hv0 : 0 < cfg.v0) (hbeta : 0 ≤ cfg.beta) :
    0 < weight cfg sender subject peer :=
  mul_pos (mul_pos (mul_pos (latencyTerm_pos peer)
    (tdfTerm_pos cfg sender peer)) (distanceTerm_pos cfg subject peer hd0))
    (speedTerm_pos cfg subject peer hv0 hbeta)

/-! ### Structure of `selectPeers` results -/

/-- An unknown sender id produces the empty result, not an error. -/
theorem selectPeers_no_sender (s : LightSeed) (a b : ℕ)
    (hs : getIdx s.peers a = none) : s.selectPeers a b = some [] := by
  unfold LightSeed.selectPeers
  rw [hs]

/-- The returned `peerIdx` fields are exactly `selectIds`: the first
`candPeers.length` entries of `peersInRange`. -/
theorem selectPeers_map_fst (s : LightSeed) (a b : ℕ) (sender subject : Peer)
    (hs : getIdx s.peers a = some sender)
    (hsub : getIdx s.peers b = some subject) :
    (s.selectPeers a b).map (fun l => l.map Prod.fst) =
      some (s.selectIds a) := by
  unfold LightSeed.selectPeers LightSeed.selectIds
  rw [hs, hsub]
  dsimp only
  by_cases hc : (s.candPeers a (s.peersInRange sender)).isEmpty = true
  · rw [if_pos hc]
    have h0 : s.candPeers a (s.peersInRange sender) = [] :=
      List.isEmpty_iff.1 hc
    rw [h0]
    simp
  · rw [if_neg hc]
    refine congrArg some ?_
    show List.map Prod.fst _ = _
    rw [List.map_fst_zip]
    · rw [List.length_map]
    · simp only [List.length_take, List.length_map]
      omega

/-- Elimination principle for a nonempty `selectPeers` result: the subject
record exists and the result is the take-then-zip of the source. -/
theorem selectPeers_elim (s : LightSeed) (a b : ℕ) (l : List (ℕ × ℝ))
    (sender : Peer) (hs : getIdx s.peers a = some sender)
    (hl : s.selectPeers a b = some l) (hne : l ≠ []) :
    ∃ subject, getIdx s.peers b = some subject ∧
      s.candPeers a (s.peersInRange sender) ≠ [] ∧
      l = ((s.peersInRange sender).take
          (((s.candPeers a (s.peersInRange sender)).map
            (weight s.config sender subject)).length)).zip
        (((s.candPeers a (s.peersInRange sender)).map
            (weight s.config sender subject)).map (fun w =>
          (1 - (s.config.epsilon : ℝ)) *
            (w / (if ((s.candPeers a (s.peersInRange sender)).map
                  (weight s.config sender subject)).sum = 0 then 1
              else ((s.candPeers a (s.peersInRange sender)).map
                  (weight s.config sender subject)).sum)) +
          (s.config.epsilon : ℝ) /
            (if s.peers.length = 0 then (1:ℝ) else (s.peers.length : ℝ)))) := by
  unfold LightSeed.selectPeers at hl
  rw [hs] at hl
  dsimp only at hl
  by_cases hc : (s.candPeers a (s.peersInRange sender)).isEmpty = true
  · rw [if_pos hc] at hl
    exact absurd (Option.some.inj hl).symm hne
  · rw [if_neg hc] at hl
    rcases hsub : getIdx s.peers b with _ | subject
    · rw [hsub] at hl
      exact Option.noConfusion hl
    · rw [hsub] at hl
      refine ⟨subject, rfl, fun h => hc (by simp [h]), ?_⟩
      exact (Option.some.inj hl).symm

/-- `selectPeers` with exactly one scored candidate of nonzero weight: the
probability collapses to `(1 - ε) + ε / N` and the reported id is the FIRST
in-range index (the misaligned filter of the source). -/
theorem selectPeers_single (s : LightSeed) (a b : ℕ)
    (sender subject cand : Peer)
    (hs : getIdx s.peers a = some sender)
    (hsub : getIdx s.peers b = some subject)
    (hcands : s.candPeers a (s.peersInRange sender) = [cand])
    (hw : weight s.config sender subject cand ≠ 0) :
    s.selectPeers a b = some (((s.peersInRange sender).take 1).zip
      [(1 - (s.config.epsilon : ℝ)) + (s.config.epsilon : ℝ) /
        (if s.peers.length = 0 then (1:ℝ) else (s.peers.length : ℝ))]) := by
  unfold LightSeed.selectPeers
  rw [hs, hsub]
  dsimp only
  rw [hcands]
  rw [if_neg (by simp)]
  simp only [List.map_cons, List.map_nil, List.sum_cons, List.sum_nil,
    add_zero, List.length_cons, List.length_nil]
  rw [if_neg hw, div_self hw, mul_one]

/-! ### Concrete evaluations -/

theorem stateA_eval :
    stateA.selectPeers 0 0 = some [((0:ℕ), (39/40 : ℝ))] := by
  have hs : getIdx stateA.peers 0 = some ⟨0, 100, 100, 0, 0, 1, 0⟩ := by
    decide
  have hcands : stateA.candPeers 0
      (stateA.peersInRange ⟨0, 100, 100, 0, 0, 1, 0⟩) =
      [⟨1, 150, 100, 0, 0, 1, 0⟩] := by decide
  have hw : weight stateA.config ⟨0, 100, 100, 0, 0, 1, 0⟩
      ⟨0, 100, 100, 0, 0, 1, 0⟩ ⟨1, 150, 100, 0, 0, 1, 0⟩ ≠ 0 :=
    ne_of_gt (weight_pos _ _ _ _ (by decide) (by decide) (by decide))
  rw [selectPeers_single stateA 0 0 _ _ _ hs hs hcands hw]
  have hinR : stateA.peersInRange ⟨0, 100, 100, 0, 0, 1, 0⟩ = [0, 1] := by
    decide
  have hlen : stateA.peers.length = 2 := by decide
  rw [hinR, hlen]
  have hcfg : stateA.config = defaultConfig := rfl
  rw [hcfg]
  norm_num [defaultConfig]

theorem stateB_eval :
    stateB.selectPeers 0 0 = some [((0:ℕ), (29/30 : ℝ))] := by
  have hs : getIdx stateB.peers 0 = some ⟨0, 100, 100, 0, 0, 1, 0⟩ := by
    decide
  have hcands : stateB.candPeers 0
      (stateB.peersInRange ⟨0, 100, 100, 0, 0, 1, 0⟩) =
      [⟨2, 150, 100, 0, 0, 1, 0⟩] := by decide
  have hw : weight stateB.config ⟨0, 100, 100, 0, 0, 1, 0⟩
      ⟨0, 100, 100, 0, 0, 1, 0⟩ ⟨2, 150, 100, 0, 0, 1, 0⟩ ≠ 0 :=
    ne_of_gt (weight_pos _ _ _ _ (by decide) (by decide) (by decide))
  rw [selectPeers_single stateB 0 0 _ _ _ hs hs hcands hw]
  have hinR : stateB.peersInRange ⟨0, 100, 100, 0, 0, 1, 0⟩ = [0, 2] := by
    decide
  have hlen : stateB.peers.length = 3 := by decide
  rw [hinR, hlen]
  have hcfg : stateB.config = defaultConfig := rfl
  rw [hcfg]
  norm_num [defaultConfig]

theorem stateD_eval :
    stateD.selectPeers 0 0 = some [((0:ℕ), (77/80 : ℝ))] := by
  have hs : getIdx stateD.peers 0 = some ⟨0, 100, 100, 0, 0, 9/10, 0⟩ := by
    decide
  have hcands : stateD.candPeers 0
      (stateD.peersInRange ⟨0, 100, 100, 0, 0, 9/10, 0⟩) =
      [⟨1, 150, 100, 0, 0, 1, 0⟩] := by decide
  have hw : weight stateD.config ⟨0, 100, 100, 0, 0, 9/10, 0⟩
      ⟨0, 100, 100, 0, 0, 9/10, 0⟩ ⟨1, 150, 100, 0, 0, 1, 0⟩ ≠ 0 :=
    ne_of_gt (weight_pos _ _ _ _ (by decide) (by decide) (by decide))
  rw [selectPeers_single stateD 0 0 _ _ _ hs hs hcands hw]
  have hinR : stateD.peersInRange ⟨0, 100, 100, 0, 0, 9/10, 0⟩ = [0, 1] := by
    decide
  have hlen : stateD.peers.length = 4 := by decide
  rw [hinR, hlen]
  have hcfg : stateD.config = config800 := rfl
  rw [hcfg]
  norm_num [config800, defaultConfig]

/-! ### The rebuild performed by `updatePeer` -/

/-- After `updatePeer` the index holds exactly one point per live record, at
that record's position, provided every stored position is inside the world
(the documented precondition of the engine). -/
theorem updatePeer_sync (s : LightSeed) (i : ℕ) (px py vx vy tdf lat : ℚ)
    (hc : 0 < s.config.capacity)
    (hin : ∀ pr ∈ (s.updatePeer i px py vx vy tdf lat).peers.filterMap id,
      inBoundary (rootRect s.config) ⟨pr.x, pr.y, pr.idx⟩ = true) :
    (((s.updatePeer i px py vx vy tdf lat).quadtree.allPoints :
        Multiset Pt)) =
      ↑(((s.updatePeer i px py vx vy tdf lat).peers.filterMap id).map
        (fun pr => (⟨pr.x, pr.y, pr.idx⟩ : Pt))) := by
  have hq : (s.updatePeer i px py vx vy tdf lat).quadtree =
      insertList (QuadTree.empty (rootRect s.config) s.config.capacity)
        (((setIdx s.peers i ⟨i, px, py, vx, vy, tdf, lat⟩).filterMap id).map
          (fun pr => ⟨pr.x, pr.y, pr.idx⟩)) := rfl
  have hp : (s.updatePeer i px py vx vy tdf lat).peers =
      setIdx s.peers i ⟨i, px, py, vx, vy, tdf, lat⟩ := rfl
  rw [hp] at hin
  rw [hq, hp]
  obtain ⟨-, -, hM⟩ := insertList_master _ _
    (QuadTree.empty_inv (rootRect s.config) s.config.capacity hc)
  rw [hM]
  rw [List.filter_eq_self.2 ?_]
  · simp [QuadTree.empty, QuadTree.allPoints]
  · intro q hq2
    obtain ⟨pr, hpr, rfl⟩ := List.mem_map.1 hq2
    exact hin pr hpr

theorem snd_mem_of_mem_zip {l1 : List ℕ} {l2 : List ℝ} {x : ℕ × ℝ}
    (h : x ∈ l1.zip l2) : x.2 ∈ l2 := by
  obtain ⟨a, b⟩ := x
  exact (List.of_mem_zip h).2

theorem fst_mem_of_mem_zip {l1 : List ℕ} {l2 : List ℝ} {x : ℕ × ℝ}
    (h : x ∈ l1.zip l2) : x.1 ∈ l1 := by
  obtain ⟨a, b⟩ := x
  exact (List.of_mem_zip h).1

/-! ### Claim theorems -/

/-- C1: the self-exclusion property is FALSE in the code.  With two peers 50m
apart under the default configuration (horizon 62.5m), `selectPeers(0, 0)`
returns exactly one entry and its `peerIdx` is 0 — the sender itself.  The
`peersInRange.filter((_, i) => weights[i] !== undefined)` step keeps the
first `weights.length` entries of `peersInRange` (which starts with the
sender) instead of the entries that were actually scored, so the single
scored candidate (peer 1) is reported under the sender's id. -/
theorem sender_included_in_own_selection :
    (stateA.selectPeers 0 0).map (fun l => l.map Prod.fst) = some [0] := by
  rw [stateA_eval]
  rfl

/-- C2 (counterexample): after five inserts into a capacity-4 root, the root
has subdivided yet still holds its four original points directly — an
internal (divided) node does NOT hold zero points, refuting the claimed
invariant. -/
theorem divided_root_retains_points :
    treeFive.divided = true ∧ treeFive.points.length = 4 := by decide

/-- C2 (amended): after any sequence of inserts from a fresh root with
positive capacity, every node satisfies `QuadTree.inv`: a leaf holds at most
`capacity` points; a divided node holds EXACTLY `capacity` points directly
(the points present when it subdivided) and has exactly four quadrant
children; and subdivision is one-way (`insert` never turns a divided node
back into a leaf). -/
theorem quadtree_invariant_preserved :
    (∀ (b : Rect) (c : ℕ) (ps : List Pt), 0 < c →
      (insertList (QuadTree.empty b c) ps).inv = true) ∧
    (∀ (t : QuadTree) (p : Pt), t.divided = true →
      ((t.insert p).1).divided = true) := by
  constructor
  · intro b c ps hc
    exact (insertList_master ps _ (QuadTree.empty_inv b c hc)).1
  · intro t p hd
    cases t with
    | leaf b c ps => simp [QuadTree.divided] at hd
    | node b c ps nw ne sw se =>
      exact QuadTree.insert_keeps_divided b c ps nw ne sw se p

theorem quadtree_invariant_preserved_witness :
    ((0:ℕ) < 4 ∧ (insertList (QuadTree.empty ⟨0, 0, 800, 800⟩ 4)
      [⟨100, 100, 0⟩]).inv = true) ∧
    (treeFive.divided = true ∧
      ((treeFive.insert ⟨50, 50, 9⟩).1).divided = true) :=
  ⟨⟨by decide, quadtree_invariant_preserved.1 ⟨0, 0, 800, 800⟩ 4
      [⟨100, 100, 0⟩] (by decide)⟩,
    ⟨by decide, quadtree_invariant_preserved.2 treeFive ⟨50, 50, 9⟩
      (by decide)⟩⟩

/-- C3: range-query correctness.  For any point list folded into a fresh
tree (positive capacity) and any query circle with nonnegative radius, a
point is returned by `query` exactly when it was successfully inserted (i.e.
listed and inside the root region) and its Euclidean distance from the
center is at most the radius, inclusively. -/
theorem query_is_brute_force_filter (b : Rect) (c : ℕ) (ps : List Pt)
    (rg : Range) (hc : 0 < c) (hr : 0 ≤ rg.r) (q : Pt) :
    q ∈ (insertList (QuadTree.empty b c) ps).query rg ↔
      (q ∈ ps ∧ inBoundary b q = true) ∧
        euclid q.x q.y rg.cx rg.cy ≤ (rg.r : ℝ) := by
  obtain ⟨hI, -, -⟩ := insertList_master ps _ (QuadTree.empty_inv b c hc)
  rw [QuadTree.query_eq_filter rg _ hI, List.mem_filter,
    mem_insertList b c hc, pointInRange_iff_dist q rg hr]

theorem query_is_brute_force_filter_witness :
    ((0:ℕ) < 4 ∧ (0:ℚ) ≤ 50) ∧
    ((⟨100, 100, 0⟩ : Pt) ∈ (insertList (QuadTree.empty ⟨0, 0, 800, 800⟩ 4)
        [⟨100, 100, 0⟩, ⟨150, 100, 1⟩]).query ⟨100, 100, 50⟩ ↔
      ((⟨100, 100, 0⟩ : Pt) ∈ [(⟨100, 100, 0⟩ : Pt), ⟨150, 100, 1⟩] ∧
        inBoundary ⟨0, 0, 800, 800⟩ ⟨100, 100, 0⟩ = true) ∧
      euclid 100 100 100 100 ≤ ((50 : ℚ) : ℝ)) :=
  ⟨⟨by decide, by decide⟩,
    query_is_brute_force_filter ⟨0, 0, 800, 800⟩ 4
      [⟨100, 100, 0⟩, ⟨150, 100, 1⟩] ⟨100, 100, 50⟩ (by decide) (by decide)
      ⟨100, 100, 0⟩⟩

/-- C4: on any well-formed tree (`QuadTree.inv`, which in particular demands
the positive capacity without which the source recurses forever), `insert`
returns `true` exactly when the point lies in the node's half-open region,
and a `false` result leaves the tree completely unchanged.  In-region
inserts never fail for capacity reasons: the `true` direction holds even
when the node is full, via transparent subdivision. -/
theorem insert_true_iff_in_region (t : QuadTree) (p : Pt)
    (hinv : t.inv = true) :
    ((t.insert p).2 = true ↔ inBoundary t.boundary p = true) ∧
    ((t.insert p).2 = false → t.insert p = (t, false)) := by
  obtain ⟨-, -, hS, -, -⟩ := QuadTree.insert_master p t hinv
  exact ⟨by rw [hS], fun hf =>
    QuadTree.insert_unchanged_of_false t p hinv hf⟩

theorem insert_true_iff_in_region_witness :
    treeFive.inv = true ∧
    (((treeFive.insert ⟨900, 900, 7⟩).2 = true ↔
        inBoundary treeFive.boundary ⟨900, 900, 7⟩ = true) ∧
      ((treeFive.insert ⟨900, 900, 7⟩).2 = false →
        treeFive.insert ⟨900, 900, 7⟩ = (treeFive, false))) :=
  ⟨by decide, insert_true_iff_in_region treeFive ⟨900, 900, 7⟩ (by decide)⟩

/-- C5 (counterexample): the normalizer is `this.peers.length || 1` — the
length of the (sparse) peers array — not the participant count.  In
`stateB` only two records exist (ids 0 and 2) but the array has length 3;
the single candidate gets probability `(1-ε)·1 + ε/3 = 29/30`, whereas the
claim's formula with `N = 2` gives `(1-ε)·1 + ε/2 = 39/40 ≠ 29/30`. -/
theorem prob_uses_array_length_not_count :
    stateB.selectPeers 0 0 = some [((0:ℕ), (29/30 : ℝ))] ∧
    (29/30 : ℝ) ≠ (1 - 1/20) * 1 + (1/20) / 2 :=
  ⟨stateB_eval, by norm_num⟩

/-- C5 (amended): with `N` read as the peers ARRAY length (`max` of one and
`this.peers.length`, the `|| 1` guard), every returned probability is of the
form `(1-ε)·(w/Σw) + ε/N` for the (positive) weight `w` of one of the scored
candidates, and satisfies the floor `ε/N` and the bounds `[0, 1]`, given
`d0, v0 > 0`, `β ≥ 0` and `ε ∈ [0, 1]`. -/
theorem prob_formula_and_floor (s : LightSeed) (a b : ℕ)
    (l : List (ℕ × ℝ)) (hl : s.selectPeers a b = some l)
    (hd0 : 0 < s.config.d0) (hv0 : 0 < s.config.v0)
    (hbeta : 0 ≤ s.config.beta)
    (heps0 : 0 ≤ s.config.epsilon) (heps1 : s.config.epsilon ≤ 1) :
    ∀ pr ∈ l,
      (∃ sender subject : Peer,
        getIdx s.peers a = some sender ∧ getIdx s.peers b = some subject ∧
        ∃ w ∈ (s.candPeers a (s.peersInRange sender)).map
            (weight s.config sender subject),
          0 < w ∧
          w ≤ ((s.candPeers a (s.peersInRange sender)).map
              (weight s.config sender subject)).sum ∧
          0 < ((s.candPeers a (s.peersInRange sender)).map
              (weight s.config sender subject)).sum ∧
          pr.2 = (1 - (s.config.epsilon : ℝ)) *
              (w / ((s.candPeers a (s.peersInRange sender)).map
                (weight s.config sender subject)).sum) +
            (s.config.epsilon : ℝ) /
              (if s.peers.length = 0 then (1:ℝ) else (s.peers.length : ℝ))) ∧
      (s.config.epsilon : ℝ) /
          (if s.peers.length = 0 then (1:ℝ) else (s.peers.length : ℝ)) ≤
        pr.2 ∧
      0 ≤ pr.2 ∧ pr.2 ≤ 1 := by
  intro pr hpr
  have hne : l ≠ [] := by
    intro h
    subst h
    exact List.not_mem_nil pr hpr
  rcases hsend : getIdx s.peers a with _ | sender
  · rw [selectPeers_no_sender s a b hsend] at hl
    exact absurd (Option.some.inj hl).symm hne
  · obtain ⟨subject, hsub, hcne, hleq⟩ :=
      selectPeers_elim s a b l sender hsend hl hne
    have hwpos : ∀ w ∈ (s.candPeers a (s.peersInRange sender)).map
        (weight s.config sender subject), 0 < w := by
      intro w hw
      obtain ⟨cand, -, rfl⟩ := List.mem_map.1 hw
      exact weight_pos _ _ _ _ hd0 hv0 hbeta
    have hwsne : (s.candPeers a (s.peersInRange sender)).map
        (weight s.config sender subject) ≠ [] := by
      intro h
      exact hcne (by simpa using h)
    have hsum : 0 < ((s.candPeers a (s.peersInRange sender)).map
        (weight s.config sender subject)).sum :=
      List.sum_pos _ hwpos hwsne
    have htw : (if ((s.candPeers a (s.peersInRange sender)).map
          (weight s.config sender subject)).sum = 0 then (1:ℝ)
        else ((s.candPeers a (s.peersInRange sender)).map
          (weight s.config sender subject)).sum) =
        ((s.candPeers a (s.peersInRange sender)).map
          (weight s.config sender subject)).sum := if_neg (ne_of_gt hsum)
    have hn1 : (1:ℝ) ≤
        (if s.peers.length = 0 then (1:ℝ) else (s.peers.length : ℝ)) := by
      split
      · exact le_refl 1
      · rename_i h
        exact_mod_cast Nat.one_le_iff_ne_zero.2 h
    have hn0 : (0:ℝ) <
        (if s.peers.length = 0 then (1:ℝ) else (s.peers.length : ℝ)) :=
      lt_of_lt_of_le one_pos hn1
    have heps0' : (0:ℝ) ≤ (s.config.epsilon : ℝ) := by exact_mod_cast heps0
    have heps1' : (s.config.epsilon : ℝ) ≤ 1 := by exact_mod_cast heps1
    rw [hleq] at hpr
    have hsnd := snd_mem_of_mem_zip hpr
    obtain ⟨w, hwmem, hpr2⟩ := List.mem_map.1 hsnd
    replace hpr2 : pr.2 = _ := hpr2.symm
    rw [htw] at hpr2
    have hw0 : 0 < w := hwpos w hwmem
    have hwle : w ≤ ((s.candPeers a (s.peersInRange sender)).map
        (weight s.config sender subject)).sum :=
      List.single_le_sum (fun w hw => (hwpos w hw).le) w hwmem
    have hdiv1 : w / ((s.candPeers a (s.peersInRange sender)).map
        (weight s.config sender subject)).sum ≤ 1 :=
      (div_le_one hsum).2 hwle
    have hdiv0 : 0 < w / ((s.candPeers a (s.peersInRange sender)).map
        (weight s.config sender subject)).sum := div_pos hw0 hsum
    have hfloor0 : 0 ≤ (s.config.epsilon : ℝ) /
        (if s.peers.length = 0 then (1:ℝ) else (s.peers.length : ℝ)) :=
      div_nonneg heps0' hn0.le
    have hfloorle : (s.config.epsilon : ℝ) /
        (if s.peers.length = 0 then (1:ℝ) else (s.peers.length : ℝ)) ≤
        (s.config.epsilon : ℝ) := div_le_self heps0' hn1
    have hmul0 : 0 ≤ (1 - (s.config.epsilon : ℝ)) *
        (w / ((s.candPeers a (s.peersInRange sender)).map
          (weight s.config sender subject)).sum) :=
      mul_nonneg (by linarith) hdiv0.le
    have hmul1 : (1 - (s.config.epsilon : ℝ)) *
        (w / ((s.candPeers a (s.peersInRange sender)).map
          (weight s.config sender subject)).sum) ≤
        1 - (s.config.epsilon : ℝ) := by
      nlinarith
    refine ⟨⟨sender, subject, rfl, hsub, w, hwmem, hw0, hwle, hsum, hpr2⟩,
      ?_, ?_, ?_⟩
    · rw [hpr2]
      linarith
    · rw [hpr2]
      linarith
    · rw [hpr2]
      linarith

theorem prob_formula_and_floor_witness :
    stateB.selectPeers 0 0 = some [((0:ℕ), (29/30 : ℝ))] ∧
    (∀ pr ∈ [((0:ℕ), (29/30 : ℝ))],
      (∃ sender subject : Peer,
        getIdx stateB.peers 0 = some sender ∧
        getIdx stateB.peers 0 = some subject ∧
        ∃ w ∈ (stateB.candPeers 0 (stateB.peersInRange sender)).map
            (weight stateB.config sender subject),
          0 < w ∧
          w ≤ ((stateB.candPeers 0 (stateB.peersInRange sender)).map
              (weight stateB.config sender subject)).sum ∧
          0 < ((stateB.candPeers 0 (stateB.peersInRange sender)).map
              (weight stateB.config sender subject)).sum ∧
          pr.2 = (1 - (stateB.config.epsilon : ℝ)) *
              (w / ((stateB.candPeers 0 (stateB.peersInRange sender)).map
                (weight stateB.config sender subject)).sum) +
            (stateB.config.epsilon : ℝ) /
              (if stateB.peers.length = 0 then (1:ℝ)
                else (stateB.peers.length : ℝ))) ∧
      (stateB.config.epsilon : ℝ) /
          (if stateB.peers.length = 0 then (1:ℝ)
            else (stateB.peers.length : ℝ)) ≤ pr.2 ∧
      0 ≤ pr.2 ∧ pr.2 ≤ 1) :=
  ⟨stateB_eval, prob_formula_and_floor stateB 0 0 _ stateB_eval (by decide)
    (by decide) (by decide) (by decide) (by decide)⟩

/-- C6 (counterexample): the causal-horizon claim fails when a stale index
point survives a re-registration.  In `stateC`, id 1 was first inserted at
(120, 100) — within the 62.5m horizon of the sender at (100, 100) — and then
re-inserted at (700, 700); the stale point keeps id 1 in `peersInRange`, and
the misaligned final filter reports ids `[0, 1]`.  Id 1's actual record sits
at distance √720000 ≈ 848.5, far beyond the horizon `R = 62.5`. -/
theorem stale_point_breaks_horizon :
    (stateC.selectPeers 0 0).map (fun l => l.map Prod.fst) = some [0, 1] ∧
    getIdx stateC.peers 0 = some ⟨0, 100, 100, 0, 0, 1, 0⟩ ∧
    getIdx stateC.peers 1 = some ⟨1, 700, 700, 0, 0, 1, 0⟩ ∧
    ¬ (euclid 700 700 100 100 ≤
        ((stateC.config.lightSpeed * stateC.config.deltaT : ℚ) : ℝ)) := by
  refine ⟨?_, by decide, by decide, ?_⟩
  · rw [selectPeers_map_fst stateC 0 0 ⟨0, 100, 100, 0, 0, 1, 0⟩
      ⟨0, 100, 100, 0, 0, 1, 0⟩ (by decide) (by decide)]
    decide
  · have hq : (stateC.config.lightSpeed * stateC.config.deltaT : ℚ) =
        125/2 := by decide
    rw [hq]
    have he : euclid 700 700 100 100 = Real.sqrt 720000 := by
      unfold euclid
      norm_num
    rw [he, not_le, show (((125/2 : ℚ)) : ℝ) = 125/2 by norm_num]
    rw [Real.lt_sqrt (by norm_num)]
    norm_num

/-- C6 (amended): provided every point of the spatial index carries the
position currently recorded for its id (`ptMatchesRecord`, which holds after
every `updatePeer` rebuild and can only be broken by re-running `insertPeer`
for an existing id), every peer id in a `selectPeers` result names a record
within Euclidean distance `R = lightSpeed · deltaT = nCells · cellSize ·
deltaT` of the sender's position (for nonnegative `R`). -/
theorem horizon_respected_when_index_consistent (s : LightSeed) (a b : ℕ)
    (sender : Peer) (l : List (ℕ × ℝ))
    (hs : getIdx s.peers a = some sender)
    (hl : s.selectPeers a b = some l)
    (hr : 0 ≤ s.config.lightSpeed * s.config.deltaT)
    (hcons : ∀ pt ∈ s.quadtree.allPoints, ptMatchesRecord s pt = true) :
    ∀ pr ∈ l, ∀ rec : Peer, getIdx s.peers pr.1 = some rec →
      euclid rec.x rec.y sender.x sender.y ≤
        ((s.config.lightSpeed * s.config.deltaT : ℚ) : ℝ) := by
  intro pr hpr rec hrec
  have hne : l ≠ [] := by
    intro h
    subst h
    exact List.not_mem_nil pr hpr
  obtain ⟨subject, hsub, -, hleq⟩ := selectPeers_elim s a b l sender hs hl hne
  rw [hleq] at hpr
  have h1 := fst_mem_of_mem_zip hpr
  have h2 : pr.1 ∈ s.peersInRange sender := List.take_subset _ _ h1
  obtain ⟨pt, hptq, hidx⟩ := List.mem_map.1 h2
  obtain ⟨hptall, hptin⟩ := QuadTree.mem_query_sound _ pt _ hptq
  have hm := hcons pt hptall
  unfold ptMatchesRecord at hm
  rw [hidx, hrec] at hm
  simp only [Bool.and_eq_true, decide_eq_true_eq] at hm
  obtain ⟨hx, hy⟩ := hm
  have hdist := (pointInRange_iff_dist pt (s.senderRange sender) hr).1 hptin
  rw [hx, hy]
  simpa [LightSeed.senderRange] using hdist

theorem horizon_respected_witness :
    (0 : ℚ) ≤ stateA.config.lightSpeed * stateA.config.deltaT ∧
    (∀ pr ∈ [((0:ℕ), (39/40 : ℝ))], ∀ rec : Peer,
      getIdx stateA.peers pr.1 = some rec →
      euclid rec.x rec.y 100 100 ≤
        ((stateA.config.lightSpeed * stateA.config.deltaT : ℚ) : ℝ)) :=
  ⟨by decide, horizon_respected_when_index_consistent stateA 0 0
    ⟨0, 100, 100, 0, 0, 1, 0⟩ [((0:ℕ), (39/40 : ℝ))] (by decide) stateA_eval
    (by decide) (by decide)⟩

/-- C7: an absent sender record yields `some []` — the empty selection, not
an error (`none` in this model marks the one genuine `TypeError` path of the
method, the missing-subject access; it is never produced here).  The model's
`selectPeers` is a pure function of the state, which it does not modify —
the JS method performs no assignment to `this`. -/
theorem absent_sender_empty_result (s : LightSeed) (a b : ℕ)
    (hs : getIdx s.peers a = none) : s.selectPeers a b = some [] :=
  selectPeers_no_sender s a b hs

theorem absent_sender_empty_result_witness :
    getIdx (LightSeed.create defaultConfig).peers 5 = none ∧
    (LightSeed.create defaultConfig).selectPeers 5 0 = some [] :=
  ⟨by decide, absent_sender_empty_result (LightSeed.create defaultConfig) 5 0
    (by decide)⟩

/-- C8 (counterexample): in the spec's concrete scenario (`stateD`, world
side 800, defaults otherwise, horizon `R = 2·25·1 = 50`), `selectPeers(0,0)`
does NOT include peers 1 and 2: it returns the single id 0 (the sender, via
the misaligned filter).  Peer 2 at distance 100 is outside the horizon 50 —
the claim's premise that 100 ≤ 50 "at/near the boundary" is simply wrong —
and peer 1, the lone scored candidate, is reported under id 0. -/
theorem scenario_returns_only_sender :
    (stateD.selectPeers 0 0).map (fun l => l.map Prod.fst) = some [0] := by
  rw [stateD_eval]
  rfl

/-- C8 (amended): in the scenario, `selectPeers(0, 0)` returns exactly one
entry `(0, 77/80)`: the lone candidate within the horizon is peer 1
(distance 50, inclusive comparison), its probability is
`(1-ε)·1 + ε/4 = 77/80`, and the floor/bounds hold (`ε/N = 1/80 ≤ 77/80 ≤
1`); peers 2 (distance 100) and 3 (distance ≈ 566) are outside the horizon
and absent. -/
theorem scenario_actual_result :
    stateD.selectPeers 0 0 = some [((0:ℕ), (77/80 : ℝ))] ∧
    (stateD.config.epsilon : ℝ) / 4 ≤ 77/80 ∧ (0:ℝ) ≤ 77/80 ∧
      (77/80 : ℝ) ≤ 1 := by
  refine ⟨stateD_eval, ?_, by norm_num, by norm_num⟩
  have hc : stateD.config = config800 := rfl
  rw [hc]
  norm_num [config800, defaultConfig]

/-- C9: provided every stored participant position lies inside the world
region (the engine's documented precondition) and the configured capacity is
positive, the index rebuilt by `updatePeer` contains exactly one point per
live participant record, at that record's current position (as a multiset
equality). -/
theorem update_rebuild_syncs_index (s : LightSeed) (i : ℕ)
    (px py vx vy tdf lat : ℚ) (hc : 0 < s.config.capacity)
    (hin : ∀ pr ∈ (s.updatePeer i px py vx vy tdf lat).peers.filterMap id,
      inBoundary (rootRect s.config) ⟨pr.x, pr.y, pr.idx⟩ = true) :
    (((s.updatePeer i px py vx vy tdf lat).quadtree.allPoints :
        Multiset Pt)) =
      ↑(((s.updatePeer i px py vx vy tdf lat).peers.filterMap id).map
        (fun pr => (⟨pr.x, pr.y, pr.idx⟩ : Pt))) :=
  updatePeer_sync s i px py vx vy tdf lat hc hin

theorem update_rebuild_syncs_index_witness :
    0 < stateA.config.capacity ∧
    (((stateA.updatePeer 1 200 100 5 0 (9/10) (1/10)).quadtree.allPoints :
        Multiset Pt)) =
      ↑(((stateA.updatePeer 1 200 100 5 0 (9/10)
          (1/10)).peers.filterMap id).map
        (fun pr => (⟨pr.x, pr.y, pr.idx⟩ : Pt))) :=
  ⟨by decide, update_rebuild_syncs_index stateA 1 200 100 5 0 (9/10) (1/10)
    (by decide) (by decide)⟩

/-- C10 (counterexample): "no corresponding point exists in the index" is
false for a re-registered id.  In `stateE`, id 1 was first inserted at
(100, 100) and then re-inserted at the out-of-world coordinates
(2000, 2000): the record holds the new position, yet the index still
contains the stale point `(100, 100, idx 1)` for that id. -/
theorem reinsert_leaves_stale_point :
    getIdx stateE.peers 1 = some ⟨1, 2000, 2000, 0, 0, 1, 0⟩ ∧
    stateE.quadtree.allPoints = [⟨100, 100, 1⟩] := by decide

/-- C10 (amended): `insertPeer` unconditionally creates/overwrites the
record for the id with the given position, zero velocity, `tdf = 1.0` and
zero latency, whatever the index insertion returned; for coordinates outside
the root region the index is left completely unchanged by the call — so no
point for the id exists afterwards UNLESS an earlier `insertPeer` for the
same id already left one. -/
theorem insertPeer_record_unconditional (s : LightSeed) (i : ℕ)
    (px py : ℚ) :
    getIdx (s.insertPeer i px py).peers i = some ⟨i, px, py, 0, 0, 1, 0⟩ ∧
    (inBoundary s.quadtree.boundary ⟨px, py, i⟩ = false →
      (s.insertPeer i px py).quadtree = s.quadtree ∧
      ((∀ pt ∈ s.quadtree.allPoints, pt.idx ≠ i) →
        ∀ pt ∈ (s.insertPeer i px py).quadtree.allPoints, pt.idx ≠ i)) := by
  refine ⟨getIdx_setIdx s.peers i _, fun hb => ?_⟩
  have hq : (s.insertPeer i px py).quadtree =
      (s.quadtree.insert ⟨px, py, i⟩).1 := rfl
  have he := QuadTree.insert_eq_self_of_not_inB s.quadtree ⟨px, py, i⟩ hb
  constructor
  · rw [hq, he]
  · intro hfresh pt hpt
    rw [hq, he] at hpt
    exact hfresh pt hpt

theorem insertPeer_record_unconditional_witness :
    inBoundary ((LightSeed.create defaultConfig).insertPeer
      1 100 100).quadtree.boundary ⟨2000, 2000, 1⟩ = false ∧
    getIdx stateE.peers 1 = some ⟨1, 2000, 2000, 0, 0, 1, 0⟩ ∧
    stateE.quadtree =
      ((LightSeed.create defaultConfig).insertPeer 1 100 100).quadtree :=
  ⟨by decide,
    (insertPeer_record_unconditional
      ((LightSeed.create defaultConfig).insertPeer 1 100 100) 1 2000 2000).1,
    ((insertPeer_record_unconditional
      ((LightSeed.create defaultConfig).insertPeer 1 100 100) 1 2000
        2000).2 (by decide)).1⟩
